import Mathlib

/-
  Verification development for the Expense-Tracker ledger engine (src/app.js).

  The repository ships two copies of the same script (src/app.js and
  src/unnamed/part_000, identical up to comments); src/app.js is the one
  embedded here.  All definitions in the first part of this file are direct
  shallow embeddings of the JavaScript source:

  * calendar dates (`CalDate`) stand for the ISO "YYYY-MM-DD" strings the
    program stores; the JS string comparisons `exp.nextDate <= today` are
    lexicographic, which for 4-digit-year ISO dates coincides with
    (year, month, day) lexicographic order, so they are modelled by
    `CalDate.le`;
  * JS `Date` mutation arithmetic (`setDate`, `setMonth`) is modelled by
    `normDay`, the day-overflow normalisation the engine performs, over the
    proleptic Gregorian calendar that `Date` uses;
  * JS numbers are modelled by exact rationals, extended with the IEEE
    special values (`JsNum`) where the source can divide by zero
    (`updateBudgetOverview`); elsewhere only finite values arise;
  * the in-place array mutation of `migrateRecurring` (snapshot iteration
    with `expenses.slice()`, `push` appends, and in-place `exp.nextDate`
    updates) is modelled by `sweepLoop`, which threads the live ledger and
    the snapshot position of the record being visited.
-/

/-- A calendar date: the model of the ISO "YYYY-MM-DD" strings stored by the
program.  `month` is 1-based (ISO), `day` is 1-based. -/
structure CalDate where
  year : Nat
  month : Nat
  day : Nat
deriving DecidableEq, Repr

/-- Gregorian leap-year rule, as implemented by the JS `Date` object. -/
def isLeapYear (y : Nat) : Bool :=
  y % 4 == 0 && (y % 100 != 0 || y % 400 == 0)

/-- Days in a month of the proleptic Gregorian calendar (month 1-based).
Out-of-range months never arise from `nextMonth`; they default to 31. -/
def daysInMonth (y m : Nat) : Nat :=
  if m = 2 then (if isLeapYear y then 29 else 28)
  else if m = 4 ∨ m = 6 ∨ m = 9 ∨ m = 11 then 30
  else 31

/-- The calendar month following (y, m) (1-based months, with year wrap);
this is what JS `setMonth(getMonth() + 1)` moves to. -/
def nextMonth (y m : Nat) : Nat × Nat :=
  if 12 ≤ m then (y + 1, 1) else (y, m + 1)

/-- Day-overflow normalisation, as performed by the JS `Date` object when a
day-of-month is set past the end of the month: the excess days roll into the
following month(s).  The first argument is fuel; `normDay` passes `d` itself,
which always suffices because every recursive step shrinks `d` by at least
28 (see `normDayAux_congr` for fuel-irrelevance). -/
def normDayAux : Nat → Nat → Nat → Nat → CalDate
  | 0, y, m, d => ⟨y, m, d⟩
  | fuel + 1, y, m, d =>
    if d ≤ daysInMonth y m then ⟨y, m, d⟩
    else normDayAux fuel (nextMonth y m).1 (nextMonth y m).2 (d - daysInMonth y m)

/-- The normalised date with year `y`, month `m` and (possibly overflowing)
day-of-month `d`: the JS `Date` semantics of setting the day to `d`. -/
def normDay (y m d : Nat) : CalDate := normDayAux d y m d

/-- JS `next.setDate(next.getDate() + k)`: add `k` days with month rollover. -/
def jsAddDays (k : Nat) (d : CalDate) : CalDate :=
  normDay d.year d.month (d.day + k)

/-- JS `next.setMonth(next.getMonth() + 1)`: move to the next calendar month
keeping the day-of-month, with the native day-overflow rollover. -/
def jsAddMonth (d : CalDate) : CalDate :=
  normDay (nextMonth d.year d.month).1 (nextMonth d.year d.month).2 d.day

/-- `computeNextDate(dateObj, frequency)` from src/app.js (lines 729-739):
daily and weekly add 1 resp. 7 days, monthly moves to the next calendar
month, any other frequency (including a missing one) returns the date
unchanged.  The source copies its argument (`new Date(dateObj)`) and never
mutates the date passed in, so it is a pure function of the date. -/
def computeNextDate (d : CalDate) (frequency : Option String) : CalDate :=
  if frequency = some "daily" then jsAddDays 1 d
  else if frequency = some "weekly" then jsAddDays 7 d
  else if frequency = some "monthly" then jsAddMonth d
  else d

/-- Date comparison.  The program compares ISO date strings with JS `<=`,
which is lexicographic string order; on 4-digit-year ISO dates that is
exactly the lexicographic order on (year, month, day). -/
def CalDate.le (a b : CalDate) : Bool :=
  decide (a.year < b.year ∨ (a.year = b.year ∧
    (a.month < b.month ∨ (a.month = b.month ∧ a.day ≤ b.day))))

/-- Strict version of `CalDate.le`. -/
def CalDate.lt (a b : CalDate) : Bool :=
  decide (a.year < b.year ∨ (a.year = b.year ∧
    (a.month < b.month ∨ (a.month = b.month ∧ a.day < b.day))))

/-- Strict lexicographic order on (year, month) pairs; used to reason about
month rollover. -/
def ymLt (y₁ m₁ y₂ m₂ : Nat) : Prop :=
  y₁ < y₂ ∨ (y₁ = y₂ ∧ m₁ < m₂)

/-- The canonical calendar successor of a date: the next day, crossing into
the first day of the following month at month end.  This is the
specification-side meaning of "date + 1 calendar day". -/
def calSucc (d : CalDate) : CalDate :=
  if d.day < daysInMonth d.year d.month then ⟨d.year, d.month, d.day + 1⟩
  else ⟨(nextMonth d.year d.month).1, (nextMonth d.year d.month).2, 1⟩

/-- An expense record as stored in the "expenses" slot.  Optional fields
model JS object fields that may be absent: legacy records lack `category`,
`subcategory` and `paymentType` and instead carry `type`; non-recurring
records have `frequency` and `nextDate` null.  A missing `recurring` field
is falsy in every guard of the source, so it is modelled by `false`. -/
structure Expense where
  category : Option String := none
  subcategory : Option String := none
  paymentType : Option String := none
  type : Option String := none
  name : String := ""
  date : CalDate := ⟨1970, 1, 1⟩
  amount : ℚ := 0
  recurring : Bool := false
  frequency : Option String := none
  nextDate : Option CalDate := none
  id : Nat := 0
deriving DecidableEq, Repr

/-- `expenses[expenses.length - 1].id`: the id of the last record.  The
source reads it only when the array is non-empty (inside the sweep the live
array always contains at least the record being visited); the default 0 is
never reached there. -/
def lastId (l : List Expense) : Nat :=
  match l.getLast? with
  | some e => e.id
  | none => 0

/-- The sweep's guard `exp.recurring && exp.nextDate && exp.nextDate <= today`
(src/app.js line 112): a record is due when it is recurring, has a next due
date, and that date is today or earlier. -/
def isDue (today : CalDate) (e : Expense) : Bool :=
  e.recurring &&
    (match e.nextDate with
     | some nd => CalDate.le nd today
     | none => false)

/-- The sweep's update of a visited due source record (src/app.js line 128,
`exp.nextDate = cloned.nextDate`): the record with its `nextDate` advanced
one period from its previous `nextDate`.  For a due record `nextDate` is
some date, so the `getD` default is never used. -/
def advancedOf (e : Expense) : Expense :=
  { e with nextDate := some (computeNextDate (e.nextDate.getD e.date) e.frequency) }

/-- The clone the sweep pushes for a due source record (src/app.js lines
119-125): a full copy of the source, except that its id is one more than
`n` (the id of the last record of the live array at push time), its date is
the source's previous `nextDate`, and its `nextDate` is the frequency
advance of that previous `nextDate`. -/
def cloneOf (n : Nat) (e : Expense) : Expense :=
  { e with
    id := n + 1,
    date := e.nextDate.getD e.date,
    nextDate := some (computeNextDate (e.nextDate.getD e.date) e.frequency) }

/-- The body of `migrateRecurring` (src/app.js lines 109-132), made
explicit.  The source iterates over a snapshot (`expenses.slice()`) of the
ledger while pushing clones onto the live array and mutating each visited
source record's `nextDate` in place.  `sweepLoop live notifs i snap`
processes the remaining snapshot `snap`; `i` is the position in `live` of
the record currently at the head of `snap` (appends happen at the end, so
positions of snapshot records never shift, and each record is mutated only
at its own visit, so the snapshot head always reflects the record's state
when visited).  Notifications (the due reminder events, src/app.js lines
114-118) are collected in `notifs`; the `Notification.permission` gate is
the collaborator's concern and is not part of the engine. -/
def sweepLoop (today : CalDate) :
    List Expense → List (String × ℚ) → Nat → List Expense →
    List Expense × List (String × ℚ)
  | live, notifs, _, [] => (live, notifs)
  | live, notifs, i, exp :: snap =>
    if isDue today exp then
      sweepLoop today ((live.set i (advancedOf exp)) ++ [cloneOf (lastId live) exp])
        (notifs ++ [(exp.name, exp.amount)]) (i + 1) snap
    else
      sweepLoop today live notifs (i + 1) snap

/-- `migrateRecurring` (src/app.js lines 109-132): the recurrence sweep.
Returns the ledger after one sweep with the given `today`. -/
def migrateRecurring (today : CalDate) (L : List Expense) : List Expense :=
  (sweepLoop today L [] 0 L).1

/-- The due-reminder notification events (name, amount) emitted by one call
of `migrateRecurring`, in emission order. -/
def sweepNotifs (today : CalDate) (L : List Expense) : List (String × ℚ) :=
  (sweepLoop today L [] 0 L).2

/-- Specification-side description of what the sweep does to a visited
source record: a due record's `nextDate` advances by one period, any other
record is untouched. -/
def advanceIfDue (today : CalDate) (e : Expense) : Expense :=
  if isDue today e then advancedOf e else e

/-- Specification-side description of the records the sweep appends: one
clone per due snapshot record, in snapshot order; `n` is the id of the last
record of the live ledger before the next append, so consecutive clones get
consecutive ids. -/
def sweepClones (today : CalDate) : Nat → List Expense → List Expense
  | _, [] => []
  | n, e :: snap =>
    if isDue today e then cloneOf n e :: sweepClones today (n + 1) snap
    else sweepClones today n snap

/-- The form input consumed by `addExpense` (src/app.js lines 267-321).
`date` is `none` when the date field is empty (falsy in the validation);
`recurrence` is the value of the recurrence dropdown. -/
structure ExpenseInput where
  category : String
  subcategory : String
  paymentType : String
  name : String
  date : Option CalDate
  amount : ℚ
  recurring : Bool
  recurrence : String
deriving DecidableEq, Repr

/-- The validation guard of `addExpense` (src/app.js lines 283-290). -/
def validInput (inp : ExpenseInput) : Bool :=
  inp.category != "chooseOne" && inp.subcategory != "chooseOne" &&
    inp.paymentType != "chooseOne" && decide (0 < inp.name.length) &&
    inp.date.isSome && decide (0 < inp.amount)

/-- The record literal built by `addExpense` (src/app.js lines 292-307). -/
def mkExpense (inp : ExpenseInput) (L : List Expense) : Expense :=
  { category := some inp.category
    subcategory := some inp.subcategory
    paymentType := some inp.paymentType
    type := none
    name := inp.name
    date := inp.date.getD ⟨1970, 1, 1⟩
    amount := inp.amount
    recurring := inp.recurring
    frequency := if inp.recurring then some inp.recurrence else none
    nextDate :=
      if inp.recurring then
        some (computeNextDate (inp.date.getD ⟨1970, 1, 1⟩)
          (if inp.recurring then some inp.recurrence else none))
      else none
    id := if 0 < L.length then lastId L + 1 else 1 }

/-- `addExpense` (src/app.js lines 267-321): append the new record when the
input validates, otherwise leave the ledger unchanged (the invalid branch
only alerts).  When valid, `inp.date` is some date, so the `getD` default in
`mkExpense` is never used. -/
def addExpense (inp : ExpenseInput) (L : List Expense) : List Expense :=
  if validInput inp then L ++ [mkExpense inp L] else L

/-- The per-record rewrite of `migrateOldData` (src/app.js lines 704-721):
fill category defaults, take the payment type from the legacy `type` field
(JS `expense.type || 'Other'`, so a missing or empty value becomes
"Other"), keep name, date, amount and id, and drop every other field. -/
def migrateOne (e : Expense) : Expense :=
  { category := some "Other"
    subcategory := some "Miscellaneous"
    paymentType := some (match e.type with
      | some s => if s = "" then "Other" else s
      | none => "Other")
    type := none
    name := e.name
    date := e.date
    amount := e.amount
    recurring := false
    frequency := none
    nextDate := none
    id := e.id }

/-- `migrateOldData` (src/app.js lines 704-721): when the ledger is
non-empty and its first record has no `category` field, every record is
rewritten by `migrateOne`, storage is overwritten and the page reloads
(`window.location.reload()`); the result is `some` of the rewritten ledger
in that case and `none` when no migration happens. -/
def migrateOldData (L : List Expense) : Option (List Expense) :=
  match L with
  | [] => none
  | e :: _ => if e.category.isSome then none else some (L.map migrateOne)

/-- One application start on the stored ledger, following the script's
actual execution order: `initializePage()` (line 100) runs
`migrateRecurring` first, and `migrateOldData()` runs at the very end of
the script (line 743).  When the migration fires it rewrites storage and
reloads the page; on the reloaded page the sweep runs on the migrated
ledger and `migrateOldData` no longer fires (the migrated first record has
a category, which the sweep preserves), so the whole restart amounts to one
more sweep over the migrated ledger. -/
def appStart (today : CalDate) (stored : List Expense) : List Expense :=
  let afterSweep := migrateRecurring today stored
  match migrateOldData afterSweep with
  | none => afterSweep
  | some migrated => migrateRecurring today migrated

/-- Modelled from the spec: the load order the specification asserts
("resolved via a one-time forward migration ... before any other logic
runs"), namely the legacy migration first and only then the recurrence
sweep.  Used to compare the asserted order with the source's `appStart`. -/
def appStartSpecOrder (today : CalDate) (stored : List Expense) : List Expense :=
  migrateRecurring today ((migrateOldData stored).getD stored)

/-- Ledgers reachable from the empty ledger by expense additions and
recurrence sweeps (the two operations that create records). -/
inductive Reach : List Expense → Prop where
  | nil : Reach []
  | add (inp : ExpenseInput) {L : List Expense} : Reach L → Reach (addExpense inp L)
  | sweep (today : CalDate) {L : List Expense} : Reach L → Reach (migrateRecurring today L)

/-- A JS number as it occurs in the budget pipeline: an exact rational, or
one of the IEEE special values that division by zero produces.  Rounding is
irrelevant to the properties considered here, so finite values are exact. -/
inductive JsNum where
  | num : ℚ → JsNum
  | posInf : JsNum
  | negInf : JsNum
  | nan : JsNum
deriving DecidableEq, Repr

/-- JS division on numbers, with the IEEE zero-division results. -/
def jsDiv : JsNum → JsNum → JsNum
  | .num a, .num b =>
    if b = 0 then (if a = 0 then .nan else if 0 < a then .posInf else .negInf)
    else .num (a / b)
  | .nan, _ => .nan
  | _, .nan => .nan
  | .posInf, .posInf => .nan
  | .posInf, .negInf => .nan
  | .negInf, .posInf => .nan
  | .negInf, .negInf => .nan
  | .posInf, .num b => if b < 0 then .negInf else .posInf
  | .negInf, .num b => if b < 0 then .posInf else .negInf
  | .num _, .posInf => .num 0
  | .num _, .negInf => .num 0

/-- JS multiplication on numbers, with the IEEE special-value rules. -/
def jsMul : JsNum → JsNum → JsNum
  | .nan, _ => .nan
  | _, .nan => .nan
  | .num a, .num b => .num (a * b)
  | .posInf, .num b => if b = 0 then .nan else if 0 < b then .posInf else .negInf
  | .num a, .posInf => if a = 0 then .nan else if 0 < a then .posInf else .negInf
  | .negInf, .num b => if b = 0 then .nan else if 0 < b then .negInf else .posInf
  | .num a, .negInf => if a = 0 then .nan else if 0 < a then .negInf else .posInf
  | .posInf, .posInf => .posInf
  | .posInf, .negInf => .negInf
  | .negInf, .posInf => .negInf
  | .negInf, .negInf => .posInf

/-- JS `Math.min`: NaN-propagating minimum. -/
def jsMin : JsNum → JsNum → JsNum
  | .nan, _ => .nan
  | _, .nan => .nan
  | .negInf, _ => .negInf
  | _, .negInf => .negInf
  | .posInf, b => b
  | a, .posInf => a
  | .num a, .num b => .num (min a b)

/-- JS `>=` on numbers: false whenever either side is NaN. -/
def jsGe : JsNum → JsNum → Bool
  | .nan, _ => false
  | _, .nan => false
  | .posInf, _ => true
  | _, .posInf => false
  | _, .negInf => true
  | .negInf, _ => false
  | .num a, .num b => decide (b ≤ a)

/-- `Math.min((spent / budgetAmount) * 100, 100)` (src/app.js line 643). -/
def budgetPercentage (spent budgetAmount : ℚ) : JsNum :=
  jsMin (jsMul (jsDiv (.num spent) (.num budgetAmount)) (.num 100)) (.num 100)

/-- The status classification of src/app.js lines 646-651.  The source
stores it as a CSS class string: "danger", "warning", or "" for the normal
case; the empty string is rendered here as `normal`. -/
inductive BudgetClass where
  | danger : BudgetClass
  | warning : BudgetClass
  | normal : BudgetClass
deriving DecidableEq, Repr

/-- `if (percentage >= 90) danger else if (percentage >= 75) warning` with
the untouched default otherwise (src/app.js lines 646-651). -/
def statusClass (p : JsNum) : BudgetClass :=
  if jsGe p (.num 90) then .danger
  else if jsGe p (.num 75) then .warning
  else .normal

/-- The per-category figures computed inside the `Object.keys(budgets)`
loop of `updateBudgetOverview` (src/app.js lines 639-651). -/
structure CatReport where
  budgetAmount : ℚ
  spent : ℚ
  remaining : ℚ
  percentage : JsNum
  cls : BudgetClass
deriving DecidableEq, Repr

/-- One loop iteration of `updateBudgetOverview`: given the month's spend
and the configured ceiling, produce the reported figures. -/
def reportFor (spent budgetAmount : ℚ) : CatReport :=
  { budgetAmount := budgetAmount
    spent := spent
    remaining := budgetAmount - spent
    percentage := budgetPercentage spent budgetAmount
    cls := statusClass (budgetPercentage spent budgetAmount) }

/-- The current-month spend of one category
(`currentMonthExpenses[expense.category]` accumulation plus the `|| 0`
default, src/app.js lines 620-630 and 641): the sum of the amounts of the
ledger records in `now`'s calendar month and year carrying that category. -/
def monthlySpent (now : CalDate) (L : List Expense) (cat : String) : ℚ :=
  ((L.filter (fun e =>
      e.category == some cat && e.date.month == now.month
        && e.date.year == now.year)).map Expense.amount).sum

/-- `updateBudgetOverview` (src/app.js lines 611-683), reduced to the data
it derives: one `CatReport` per configured budget, in budget-map order.
The budget map is modelled as an association list category ↦ ceiling. -/
def updateBudgetOverview (now : CalDate) (L : List Expense)
    (budgets : List (String × ℚ)) : List (String × CatReport) :=
  budgets.map (fun cb => (cb.1, reportFor (monthlySpent now L cb.1) cb.2))

/-- `setBudget` (src/app.js lines 591-604): overwrite the ceiling when the
category is non-empty and the amount is positive, otherwise change nothing.
Overwriting is modelled on the association list by replacing the first
binding of the category, or appending a new one. -/
def setBudget (category : String) (amount : ℚ)
    (budgets : List (String × ℚ)) : List (String × ℚ) :=
  if category ≠ "" ∧ 0 < amount then
    if budgets.any (fun cb => cb.1 == category) then
      budgets.map (fun cb => if cb.1 == category then (category, amount) else cb)
    else budgets ++ [(category, amount)]
  else budgets

/-- The largest id in a ledger (0 when empty). -/
def maxId (l : List Expense) : Nat := (l.map Expense.id).foldr max 0

/-- A daily recurring expense whose next due date lies 9 days before the
sweep date (used to exhibit sweep re-runs producing more occurrences). -/
def overdueDaily : Expense :=
  { category := some "Food & Dining", subcategory := some "Groceries",
    paymentType := some "Cash", name := "milk", date := ⟨2024, 1, 1⟩,
    amount := 5, recurring := true, frequency := some "daily",
    nextDate := some ⟨2024, 1, 1⟩, id := 1 }

/-- A weekly-cadence-free witness record: a daily recurring expense due
exactly on the sweep date, whose advanced `nextDate` passes `today`. -/
def dueToday : Expense :=
  { category := some "Health", subcategory := some "Fitness",
    paymentType := some "Card", name := "gym", date := ⟨2024, 1, 3⟩,
    amount := 20, recurring := true, frequency := some "daily",
    nextDate := some ⟨2024, 1, 10⟩, id := 1 }

/-- A daily recurring expense whose next due date lies 10 days before the
sweep date 2024-01-11. -/
def tenDaysOverdue : Expense :=
  { category := some "Transportation", subcategory := some "Gas",
    paymentType := some "Card", name := "fuel", date := ⟨2023, 12, 20⟩,
    amount := 40, recurring := true, frequency := some "daily",
    nextDate := some ⟨2024, 1, 1⟩, id := 1 }

/-- A recurring expense strictly overdue (next due date 2024-01-05, sweep
date 2024-01-10). -/
def strictlyOverdue : Expense :=
  { category := some "Entertainment", subcategory := some "Subscriptions",
    paymentType := some "Card", name := "stream", date := ⟨2023, 12, 5⟩,
    amount := 12, recurring := true, frequency := some "monthly",
    nextDate := some ⟨2024, 1, 5⟩, id := 1 }

/-- A valid one-off expense input. -/
def simpleInput : ExpenseInput :=
  { category := "Housing", subcategory := "Utilities", paymentType := "Cash",
    name := "power", date := some ⟨2024, 2, 1⟩, amount := 30,
    recurring := false, recurrence := "daily" }

/-- A legacy persisted record (no category field) that also carries
recurrence fields with a past-due date: the input on which the source's
migration order is observable. -/
def legacyRecurring : Expense :=
  { category := none, subcategory := none, paymentType := none,
    type := some "cash", name := "rent", date := ⟨2024, 1, 1⟩,
    amount := 100, recurring := true, frequency := some "daily",
    nextDate := some ⟨2024, 1, 2⟩, id := 1 }

/-- A plain legacy record: no category, no recurrence fields. -/
def legacyPlain : Expense :=
  { category := none, type := some "", name := "old", date := ⟨2023, 11, 5⟩,
    amount := 7, id := 3 }

/-- A valid recurring daily expense entered on a month boundary. -/
def recurringInput : ExpenseInput :=
  { category := "Bills & Utilities", subcategory := "Phone",
    paymentType := "Card", name := "phone", date := some ⟨2024, 3, 31⟩,
    amount := 25, recurring := true, recurrence := "daily" }

/-- A May 2024 expense of 50 in "Food & Dining". -/
def mayLunch : Expense :=
  { category := some "Food & Dining", subcategory := some "Restaurants",
    paymentType := some "Cash", name := "lunch", date := ⟨2024, 5, 2⟩,
    amount := 50, id := 1 }

theorem daysInMonth_pos (y m : Nat) : 0 < daysInMonth y m := by
  unfold daysInMonth
  split
  · split <;> omega
  · split <;> omega

theorem one_le_daysInMonth (y m : Nat) : 1 ≤ daysInMonth y m :=
  daysInMonth_pos y m

theorem normDayAux_congr :
    ∀ (f₁ f₂ y m d : Nat), d ≤ f₁ → d ≤ f₂ →
      normDayAux f₁ y m d = normDayAux f₂ y m d := by
  intro f₁
  induction f₁ with
  | zero =>
    intro f₂ y m d h₁ _
    interval_cases d
    cases f₂ with
    | zero => rfl
    | succ f => simp [normDayAux, Nat.zero_le]
  | succ f ih =>
    intro f₂ y m d h₁ h₂
    cases f₂ with
    | zero =>
      interval_cases d
      simp [normDayAux, Nat.zero_le]
    | succ f' =>
      simp only [normDayAux]
      split
      · rfl
      · rename_i hgt
        apply ih
        · have := one_le_daysInMonth y m
          omega
        · have := one_le_daysInMonth y m
          omega

/-- Unfolding equation for `normDay`, hiding the fuel. -/
theorem normDay_eq (y m d : Nat) :
    normDay y m d =
      if d ≤ daysInMonth y m then (⟨y, m, d⟩ : CalDate)
      else normDay (nextMonth y m).1 (nextMonth y m).2 (d - daysInMonth y m) := by
  unfold normDay
  cases d with
  | zero => simp [normDayAux, Nat.zero_le]
  | succ d =>
    simp only [normDayAux]
    split
    · rfl
    · rename_i hgt
      apply normDayAux_congr
      · have := one_le_daysInMonth y m
        omega
      · rfl

theorem normDay_succ (d : Nat) :
    ∀ (y m : Nat), 1 ≤ d → normDay y m (d + 1) = calSucc (normDay y m d) := by
  induction d using Nat.strong_induction_on with
  | _ d ih =>
    intro y m hd
    rw [normDay_eq y m d, normDay_eq y m (d + 1)]
    by_cases hbase : d ≤ daysInMonth y m
    · by_cases hsucc : d + 1 ≤ daysInMonth y m
      · simp only [hbase, if_pos, hsucc, calSucc]
        have : d < daysInMonth y m := hsucc
        simp [this]
      · have hd_eq : d = daysInMonth y m := by omega
        simp only [hbase, if_pos, hsucc, if_neg, not_false_iff, calSucc]
        have hnotlt : ¬ d < daysInMonth y m := by omega
        simp only [hnotlt, if_neg, not_false_iff]
        have : d + 1 - daysInMonth y m = 1 := by omega
        rw [this, normDay_eq]
        simp [one_le_daysInMonth]
    · have hsucc : ¬ d + 1 ≤ daysInMonth y m := by omega
      simp only [hbase, hsucc, if_neg, not_false_iff]
      have harith : d + 1 - daysInMonth y m = (d - daysInMonth y m) + 1 := by
        have := one_le_daysInMonth y m
        omega
      rw [harith]
      apply ih
      · have := one_le_daysInMonth y m
        omega
      · have := one_le_daysInMonth y m
        omega

theorem ymLt_nextMonth (y m : Nat) :
    ymLt y m (nextMonth y m).1 (nextMonth y m).2 := by
  unfold nextMonth ymLt
  split <;> simp

theorem ymLt_trans {y₁ m₁ y₂ m₂ y₃ m₃ : Nat}
    (h₁ : ymLt y₁ m₁ y₂ m₂) (h₂ : ymLt y₂ m₂ y₃ m₃) : ymLt y₁ m₁ y₃ m₃ := by
  unfold ymLt at *
  omega

/-- Every normalisation either leaves the date inside the starting month or
moves strictly forward in (year, month). -/
theorem normDay_cases (d : Nat) :
    ∀ (y m : Nat), normDay y m d = ⟨y, m, d⟩ ∨
      ymLt y m (normDay y m d).year (normDay y m d).month := by
  induction d using Nat.strong_induction_on with
  | _ d ih =>
    intro y m
    rw [normDay_eq]
    split
    · exact Or.inl rfl
    · rename_i hgt
      right
      have hlt : d - daysInMonth y m < d := by
        have := one_le_daysInMonth y m
        omega
      rcases ih _ hlt (nextMonth y m).1 (nextMonth y m).2 with h | h
      · rw [h]
        exact ymLt_nextMonth y m
      · exact ymLt_trans (ymLt_nextMonth y m) h

/-- Adding `k` days with the JS normalisation is `k` calendar successors,
for any valid starting date. -/
theorem jsAddDays_eq_iterate (d : CalDate) (hd : 1 ≤ d.day)
    (hdim : d.day ≤ daysInMonth d.year d.month) :
    ∀ k, jsAddDays k d = calSucc^[k] d := by
  intro k
  induction k with
  | zero =>
    unfold jsAddDays
    rw [Nat.add_zero, normDay_eq]
    simp [hdim]
  | succ k ihk =>
    unfold jsAddDays at *
    have : d.day + (k + 1) = (d.day + k) + 1 := by omega
    rw [this, normDay_succ _ _ _ (by omega), ihk,
      Function.iterate_succ_apply']

theorem lastId_concat (l : List Expense) (x : Expense) :
    lastId (l ++ [x]) = x.id := by
  unfold lastId
  rw [List.getLast?_concat]

theorem set_append_len (l₁ : List Expense) (a : Expense) (l₂ : List Expense)
    (x : Expense) : (l₁ ++ a :: l₂).set l₁.length x = l₁ ++ x :: l₂ := by
  induction l₁ with
  | nil => rfl
  | cons b l₁ ih => simp [List.set, ih]

/-- Closed form of the sweep loop.  Invariant of the iteration: the live
ledger consists of the already-visited prefix `pre` (with due records
advanced), the untouched remainder of the snapshot, and the clones pushed
so far; the position of the snapshot head in the live ledger is
`pre.length`. -/
theorem sweepLoop_spec (today : CalDate) (snap : List Expense) :
    ∀ (pre cl : List Expense) (ns : List (String × ℚ)),
      sweepLoop today (pre ++ snap ++ cl) ns pre.length snap =
        (pre ++ snap.map (advanceIfDue today) ++ cl
            ++ sweepClones today (lastId (pre ++ snap ++ cl)) snap,
         ns ++ (snap.filter (isDue today)).map (fun e => (e.name, e.amount))) := by
  induction snap with
  | nil =>
    intro pre cl ns
    simp [sweepLoop, sweepClones]
  | cons exp snap ih =>
    intro pre cl ns
    have hsplit : pre ++ (exp :: snap) ++ cl = pre ++ exp :: (snap ++ cl) := by
      simp [List.append_assoc]
    by_cases h : isDue today exp
    · simp only [sweepLoop, h, if_true]
      rw [hsplit, set_append_len]
      have hlive :
          (pre ++ advancedOf exp :: (snap ++ cl))
              ++ [cloneOf (lastId (pre ++ exp :: (snap ++ cl))) exp] =
            (pre ++ [advancedOf exp]) ++ snap
              ++ (cl ++ [cloneOf (lastId (pre ++ exp :: (snap ++ cl))) exp]) := by
        simp [List.append_assoc]
      have hlen : pre.length + 1 = (pre ++ [advancedOf exp]).length := by simp
      rw [hlive, hlen, ih]
      have hre :
          (pre ++ [advancedOf exp]) ++ snap
              ++ (cl ++ [cloneOf (lastId (pre ++ exp :: (snap ++ cl))) exp]) =
            ((pre ++ [advancedOf exp]) ++ snap ++ cl)
              ++ [cloneOf (lastId (pre ++ exp :: (snap ++ cl))) exp] := by
        simp [List.append_assoc]
      rw [hre, lastId_concat]
      have hcid : (cloneOf (lastId (pre ++ exp :: (snap ++ cl))) exp).id =
          lastId (pre ++ exp :: (snap ++ cl)) + 1 := rfl
      rw [hcid]
      have hmap : (exp :: snap).map (advanceIfDue today) =
          advancedOf exp :: snap.map (advanceIfDue today) := by
        simp [advanceIfDue, h]
      have hclones :
          sweepClones today (lastId (pre ++ exp :: (snap ++ cl))) (exp :: snap) =
            cloneOf (lastId (pre ++ exp :: (snap ++ cl))) exp
              :: sweepClones today (lastId (pre ++ exp :: (snap ++ cl)) + 1) snap := by
        simp [sweepClones, h]
      have hfilter :
          ((exp :: snap).filter (isDue today)).map (fun e => (e.name, e.amount)) =
            (exp.name, exp.amount)
              :: (snap.filter (isDue today)).map (fun e => (e.name, e.amount)) := by
        simp [List.filter, h]
      rw [hmap, hclones, hfilter]
      simp [List.append_assoc]
    · simp only [sweepLoop, h, if_false, Bool.false_eq_true]
      have hsplit2 : pre ++ (exp :: snap) ++ cl = (pre ++ [exp]) ++ snap ++ cl := by
        simp [List.append_assoc]
      rw [hsplit2]
      have hlen : pre.length + 1 = (pre ++ [exp]).length := by simp
      rw [hlen, ih]
      have hmap : (exp :: snap).map (advanceIfDue today) =
          exp :: snap.map (advanceIfDue today) := by
        simp [advanceIfDue, h]
      have hclones :
          sweepClones today (lastId ((pre ++ [exp]) ++ snap ++ cl)) (exp :: snap) =
            sweepClones today (lastId ((pre ++ [exp]) ++ snap ++ cl)) snap := by
        simp [sweepClones, h]
      have hfilter :
          ((exp :: snap).filter (isDue today)).map (fun e => (e.name, e.amount)) =
            (snap.filter (isDue today)).map (fun e => (e.name, e.amount)) := by
        simp [List.filter, h]
      rw [← hsplit2, hsplit] at *
      rw [hmap, hfilter, hclones]
      simp [List.append_assoc]

/-- The sweep, described extensionally: every source record is advanced by
`advanceIfDue`, and one clone per due snapshot record is appended, with ids
counting up from the pre-sweep last id. -/
theorem migrateRecurring_spec (today : CalDate) (L : List Expense) :
    migrateRecurring today L =
      L.map (advanceIfDue today) ++ sweepClones today (lastId L) L := by
  have h := sweepLoop_spec today L [] [] []
  simp only [List.append_nil, List.nil_append, List.length_nil] at h
  unfold migrateRecurring
  rw [h]

/-- The notifications of one sweep, described extensionally: one (name,
amount) event per due snapshot record, in snapshot order. -/
theorem sweepNotifs_spec (today : CalDate) (L : List Expense) :
    sweepNotifs today L =
      (L.filter (isDue today)).map (fun e => (e.name, e.amount)) := by
  have h := sweepLoop_spec today L [] [] []
  simp only [List.append_nil, List.nil_append, List.length_nil] at h
  unfold sweepNotifs
  rw [h]

theorem sweepClones_length (today : CalDate) :
    ∀ (S : List Expense) (n : Nat),
      (sweepClones today n S).length = S.countP (isDue today) := by
  intro S
  induction S with
  | nil => intro n; simp [sweepClones]
  | cons e S ih =>
    intro n
    by_cases h : isDue today e
    · simp [sweepClones, h, List.countP_cons, ih]
    · simp [sweepClones, h, List.countP_cons, ih]

theorem sweepClones_ids (today : CalDate) :
    ∀ (S : List Expense) (n : Nat),
      (sweepClones today n S).map Expense.id =
        List.range' (n + 1) (S.countP (isDue today)) := by
  intro S
  induction S with
  | nil => intro n; simp [sweepClones]
  | cons e S ih =>
    intro n
    by_cases h : isDue today e
    · have : (cloneOf n e).id = n + 1 := rfl
      simp [sweepClones, h, List.countP_cons, ih, this, List.range'_succ]
    · simp [sweepClones, h, List.countP_cons, ih]

theorem sweepClones_mem (today : CalDate) :
    ∀ (S : List Expense) (n : Nat) (c : Expense),
      c ∈ sweepClones today n S →
        ∃ e ∈ S, isDue today e = true ∧ c.recurring = e.recurring ∧
          c.frequency = e.frequency ∧
          c.nextDate = some (computeNextDate (e.nextDate.getD e.date) e.frequency) := by
  intro S
  induction S with
  | nil => intro n c hc; simp [sweepClones] at hc
  | cons e S ih =>
    intro n c hc
    by_cases h : isDue today e
    · simp only [sweepClones, h, if_true, List.mem_cons] at hc
      rcases hc with hc | hc
      · exact ⟨e, List.mem_cons_self e S, h, by simp [hc, cloneOf]⟩
      · obtain ⟨e', he', hdue, hprops⟩ := ih n.succ c hc
        exact ⟨e', List.mem_cons_of_mem e he', hdue, hprops⟩
    · simp only [sweepClones, h, if_false, Bool.false_eq_true] at hc
      obtain ⟨e', he', hdue, hprops⟩ := ih n c hc
      exact ⟨e', List.mem_cons_of_mem e he', hdue, hprops⟩

/-- A sweep over a ledger with no due record changes nothing. -/
theorem sweep_of_no_due (today : CalDate) (L : List Expense)
    (h : ∀ e ∈ L, isDue today e = false) :
    migrateRecurring today L = L := by
  rw [migrateRecurring_spec]
  have hclones : sweepClones today (lastId L) L = [] := by
    have hlen : (sweepClones today (lastId L) L).length = 0 := by
      rw [sweepClones_length]
      rw [List.countP_eq_zero]
      intro e he
      simp [h e he]
    exact List.eq_nil_of_length_eq_zero hlen
  have hmap : L.map (advanceIfDue today) = L := by
    have : L.map (advanceIfDue today) = L.map (fun e => e) := by
      apply List.map_congr_left
      intro e he
      simp [advanceIfDue, h e he]
    rw [this, List.map_id']
  rw [hclones, hmap, List.append_nil]

theorem foldr_max_init (A : List Nat) : ∀ x : Nat, A.foldr max x = max (A.foldr max 0) x := by
  induction A with
  | nil => intro x; simp
  | cons a A ih =>
    intro x
    simp only [List.foldr_cons, ih x, Nat.max_assoc]

theorem maxId_append (a b : List Expense) : maxId (a ++ b) = max (maxId a) (maxId b) := by
  unfold maxId
  rw [List.map_append, List.foldr_append, foldr_max_init]

theorem foldr_max_range' : ∀ (n s : Nat),
    (List.range' s n).foldr max 0 = if n = 0 then 0 else s + n - 1 := by
  intro n
  induction n with
  | zero => intro s; simp
  | succ n ih =>
    intro s
    rw [List.range'_succ]
    simp only [List.foldr_cons, ih (s + 1)]
    by_cases h : n = 0
    · simp [h]
    · rw [if_neg h, if_neg (by omega)]
      omega

theorem range'_take : ∀ (k s n : Nat), k ≤ n →
    (List.range' s n).take k = List.range' s k := by
  intro k
  induction k with
  | zero => intro s n _; simp
  | succ k ih =>
    intro s n hk
    cases n with
    | zero => omega
    | succ n =>
      rw [List.range'_succ, List.range'_succ, List.take_succ_cons, ih (s + 1) n (by omega)]

theorem advanceIfDue_id (today : CalDate) (e : Expense) :
    (advanceIfDue today e).id = e.id := by
  unfold advanceIfDue advancedOf
  split <;> rfl

theorem sweep_map_ids (today : CalDate) (L : List Expense) :
    (L.map (advanceIfDue today)).map Expense.id = L.map Expense.id := by
  rw [List.map_map]
  apply List.map_congr_left
  intro e _
  simp [advanceIfDue_id]

theorem lastId_of_ids_range' (L : List Expense) (n : Nat)
    (h : L.map Expense.id = List.range' 1 n) (hn : 0 < n) : lastId L = n := by
  unfold lastId
  have hlast : (L.map Expense.id).getLast? = some n := by
    rw [h, List.getLast?_range']
    rw [if_neg (by omega)]
    congr 1
    omega
  rw [List.getLast?_map] at hlast
  cases hL : L.getLast? with
  | none => rw [hL] at hlast; simp at hlast
  | some e =>
    rw [hL] at hlast
    simp at hlast
    exact hlast

theorem length_eq_of_ids_range' (L : List Expense) (n : Nat)
    (h : L.map Expense.id = List.range' 1 n) : L.length = n := by
  have := congrArg List.length h
  simpa using this

/-- Identifier bookkeeping for every reachable ledger: the ids are exactly
1, 2, ..., length, in insertion order. -/
theorem reach_ids {L : List Expense} (h : Reach L) :
    L.map Expense.id = List.range' 1 L.length := by
  induction h with
  | nil => simp
  | add inp hR ih =>
    rename_i L'
    unfold addExpense
    by_cases hv : validInput inp
    · rw [if_pos hv]
      rcases Nat.eq_zero_or_pos L'.length with h0 | hpos
      · have : L' = [] := List.eq_nil_of_length_eq_zero h0
        subst this
        simp [mkExpense]
      · have hlast : lastId L' = L'.length := lastId_of_ids_range' L' L'.length ih hpos
        have hid : (mkExpense inp L').id = L'.length + 1 := by
          unfold mkExpense
          simp [hpos, hlast]
        rw [List.map_append, ih]
        simp only [List.map_cons, List.map_nil, hid]
        rw [List.length_append]
        simp only [List.length_cons, List.length_nil]
        rw [List.range'_1_concat]
        simp
        omega
    · rw [if_neg hv]; exact ih
  | sweep today hR ih =>
    rename_i L'
    rw [migrateRecurring_spec]
    rw [List.map_append, sweep_map_ids, ih, sweepClones_ids]
    rcases Nat.eq_zero_or_pos L'.length with h0 | hpos
    · have : L' = [] := List.eq_nil_of_length_eq_zero h0
      subst this
      simp [sweepClones]
    · have hlast : lastId L' = L'.length := lastId_of_ids_range' L' L'.length ih hpos
      rw [hlast]
      rw [List.length_append, List.length_map, sweepClones_length]
      rw [show L'.length + 1 = 1 + L'.length by omega, List.range'_append_1]
      rw [Nat.add_comm]

/-- The clone generated for the due snapshot record at position `i` sits in
the clone list at the position counting the due records before `i`, and its
id continues the id chain from `n`. -/
theorem sweepClones_get (today : CalDate) :
    ∀ (S : List Expense) (i : Nat) (src : Expense) (n : Nat),
      S[i]? = some src → isDue today src = true →
      (sweepClones today n S)[(S.take i).countP (isDue today)]? =
        some (cloneOf (n + (S.take i).countP (isDue today)) src) := by
  intro S
  induction S with
  | nil => intro i src n hi _; simp at hi
  | cons e S ih =>
    intro i src n hi hdue
    cases i with
    | zero =>
      simp only [List.getElem?_cons_zero, Option.some.injEq] at hi
      subst hi
      simp [sweepClones, hdue]
    | succ i =>
      simp only [List.getElem?_cons_succ] at hi
      by_cases h : isDue today e
      · have hcount : ((e :: S).take (i + 1)).countP (isDue today)
            = (S.take i).countP (isDue today) + 1 := by
          simp [List.take_succ_cons, List.countP_cons, h]
        rw [hcount]
        simp only [sweepClones, h, if_true, List.getElem?_cons_succ]
        rw [ih i src (n + 1) hi hdue]
        have harith : n + 1 + (S.take i).countP (isDue today)
            = n + ((S.take i).countP (isDue today) + 1) := by omega
        rw [harith]
      · have hcount : ((e :: S).take (i + 1)).countP (isDue today)
            = (S.take i).countP (isDue today) := by
          simp [List.take_succ_cons, List.countP_cons, h]
        rw [hcount]
        simp only [sweepClones, h, if_false, Bool.false_eq_true]
        exact ih i src n hi hdue

theorem maxId_cons (e : Expense) (l : List Expense) :
    maxId (e :: l) = max e.id (maxId l) := rfl

theorem maxId_eq_lastId_of_chain :
    ∀ (L : List Expense), List.Chain' (fun a b => a.id < b.id) L → L ≠ [] →
      maxId L = lastId L := by
  intro L
  induction L with
  | nil => intro _ h; exact absurd rfl h
  | cons e L ih =>
    intro hc _
    cases L with
    | nil => simp [maxId, lastId]
    | cons f L' =>
      have hef : e.id < f.id := (List.chain'_cons.mp hc).1
      have ihh := ih (List.chain'_cons.mp hc).2 (by simp)
      have hfle : f.id ≤ maxId (f :: L') := by
        rw [maxId_cons]
        exact Nat.le_max_left _ _
      rw [maxId_cons, ihh]
      have hlast : lastId (e :: f :: L') = lastId (f :: L') := by
        unfold lastId
        rw [List.getLast?_cons_cons]
      rw [hlast]
      rw [← ihh]
      omega

theorem countP_take_le (p : Expense → Bool) (L : List Expense) (i : Nat) :
    (L.take i).countP p ≤ L.countP p := by
  conv_rhs => rw [← List.take_append_drop i L]
  rw [List.countP_append]
  omega

/-- The largest id among the records preceding position `length + k` of a
swept ledger: the sources contribute the pre-sweep maximum (= the last id,
for an id-sorted ledger) and the first `k` clones contribute consecutive
ids above it. -/
theorem sweep_front_maxId (today : CalDate) (L : List Expense) (k : Nat)
    (hchain : List.Chain' (fun a b => a.id < b.id) L)
    (hne : L ≠ [])
    (hk : k ≤ L.countP (isDue today)) :
    maxId ((migrateRecurring today L).take (L.length + k)) = lastId L + k := by
  rw [migrateRecurring_spec]
  have hlenA : (L.map (advanceIfDue today)).length = L.length := by simp
  have htake : (L.map (advanceIfDue today) ++ sweepClones today (lastId L) L).take
      (L.length + k)
      = L.map (advanceIfDue today) ++ (sweepClones today (lastId L) L).take k := by
    rw [← hlenA, List.take_append]
  rw [htake, maxId_append]
  have hA : maxId (L.map (advanceIfDue today)) = maxId L := by
    unfold maxId
    rw [sweep_map_ids]
  have hCk : maxId ((sweepClones today (lastId L) L).take k)
      = if k = 0 then 0 else lastId L + k := by
    unfold maxId
    rw [List.map_take, sweepClones_ids, range'_take k _ _ hk, foldr_max_range']
    by_cases hk0 : k = 0
    · simp [hk0]
    · rw [if_neg hk0, if_neg hk0]
      omega
  rw [hA, hCk, maxId_eq_lastId_of_chain L hchain hne]
  by_cases hk0 : k = 0
  · simp [hk0]
  · rw [if_neg hk0]
    omega

theorem computeNextDate_daily_eq (d : CalDate) (hd : 1 ≤ d.day)
    (hdim : d.day ≤ daysInMonth d.year d.month) :
    computeNextDate d (some "daily") = calSucc d := by
  unfold computeNextDate
  rw [if_pos rfl]
  rw [jsAddDays_eq_iterate d hd hdim 1, Function.iterate_one]

theorem computeNextDate_weekly_eq (d : CalDate) (hd : 1 ≤ d.day)
    (hdim : d.day ≤ daysInMonth d.year d.month) :
    computeNextDate d (some "weekly") = calSucc^[7] d := by
  unfold computeNextDate
  rw [if_neg (by decide), if_pos rfl]
  exact jsAddDays_eq_iterate d hd hdim 7

theorem computeNextDate_monthly_fit (d : CalDate)
    (hfit : d.day ≤ daysInMonth (nextMonth d.year d.month).1
      (nextMonth d.year d.month).2) :
    computeNextDate d (some "monthly") =
      ⟨(nextMonth d.year d.month).1, (nextMonth d.year d.month).2, d.day⟩ := by
  unfold computeNextDate
  rw [if_neg (by decide), if_neg (by decide), if_pos rfl]
  unfold jsAddMonth
  rw [normDay_eq, if_pos hfit]

theorem computeNextDate_default (d : CalDate) (f : Option String)
    (h1 : f ≠ some "daily") (h2 : f ≠ some "weekly") (h3 : f ≠ some "monthly") :
    computeNextDate d f = d := by
  unfold computeNextDate
  rw [if_neg h1, if_neg h2, if_neg h3]

theorem lt_of_ymLt {a b : CalDate} (h : ymLt a.year a.month b.year b.month) :
    CalDate.lt a b = true := by
  unfold CalDate.lt
  unfold ymLt at h
  simp only [decide_eq_true_eq]
  omega

theorem normDay_lt_of_day_lt (y m d0 d : Nat) (h : d0 < d) :
    CalDate.lt ⟨y, m, d0⟩ (normDay y m d) = true := by
  rcases normDay_cases d y m with hc | hc
  · rw [hc]
    unfold CalDate.lt
    simp only [decide_eq_true_eq]
    simp [h]
  · exact lt_of_ymLt hc

/-- Each of the three supported frequencies advances a date strictly. -/
theorem lt_computeNextDate (d : CalDate) (f : String)
    (hf : f = "daily" ∨ f = "weekly" ∨ f = "monthly") :
    CalDate.lt d (computeNextDate d (some f)) = true := by
  rcases hf with hf | hf | hf <;> subst hf
  · unfold computeNextDate
    rw [if_pos rfl]
    exact normDay_lt_of_day_lt d.year d.month d.day (d.day + 1) (by omega)
  · unfold computeNextDate
    rw [if_neg (by decide), if_pos rfl]
    exact normDay_lt_of_day_lt d.year d.month d.day (d.day + 7) (by omega)
  · unfold computeNextDate
    rw [if_neg (by decide), if_neg (by decide), if_pos rfl]
    unfold jsAddMonth
    rcases normDay_cases d.day (nextMonth d.year d.month).1
      (nextMonth d.year d.month).2 with hc | hc
    · rw [hc]
      exact lt_of_ymLt (ymLt_nextMonth d.year d.month)
    · exact lt_of_ymLt (ymLt_trans (ymLt_nextMonth d.year d.month) hc)

theorem budgetPercentage_pos_ceiling (spent ceiling : ℚ) (hc : 0 < ceiling) :
    budgetPercentage spent ceiling = .num (min (spent / ceiling * 100) 100) := by
  unfold budgetPercentage
  have hdiv : jsDiv (.num spent) (.num ceiling) = .num (spent / ceiling) := by
    simp only [jsDiv]
    rw [if_neg (ne_of_gt hc)]
  rw [hdiv]
  rfl

theorem statusClass_num (q : ℚ) :
    statusClass (.num q) =
      if 90 ≤ q then .danger else if 75 ≤ q then .warning else .normal := by
  unfold statusClass
  have h1 : jsGe (.num q) (.num 90) = decide (90 ≤ q) := rfl
  have h2 : jsGe (.num q) (.num 75) = decide (75 ≤ q) := rfl
  rw [h1, h2]
  by_cases hq : 90 ≤ q
  · simp [hq]
  · by_cases hq2 : 75 ≤ q <;> simp [hq, hq2]

theorem statusClass_iff (q : ℚ) :
    (statusClass (.num q) = BudgetClass.danger ↔ 90 ≤ q) ∧
    (statusClass (.num q) = BudgetClass.warning ↔ (75 ≤ q ∧ q < 90)) ∧
    (statusClass (.num q) = BudgetClass.normal ↔ q < 75) := by
  rw [statusClass_num]
  by_cases h1 : 90 ≤ q
  · rw [if_pos h1]
    refine ⟨⟨fun _ => h1, fun _ => rfl⟩, ?_, ?_⟩
    · exact ⟨fun hcon => absurd hcon (by decide),
        fun hw => absurd h1 (not_le.mpr hw.2)⟩
    · exact ⟨fun hcon => absurd hcon (by decide),
        fun hn => absurd h1 (not_le.mpr (by linarith))⟩
  · rw [if_neg h1]
    by_cases h2 : 75 ≤ q
    · rw [if_pos h2]
      refine ⟨?_, ?_, ?_⟩
      · exact ⟨fun hcon => absurd hcon (by decide), fun hge => absurd hge h1⟩
      · exact ⟨fun _ => ⟨h2, not_le.mp h1⟩, fun _ => rfl⟩
      · exact ⟨fun hcon => absurd hcon (by decide),
          fun hn => absurd h2 (not_le.mpr hn)⟩
    · rw [if_neg h2]
      refine ⟨?_, ?_, ?_⟩
      · exact ⟨fun hcon => absurd hcon (by decide), fun hge => absurd hge h1⟩
      · exact ⟨fun hcon => absurd hcon (by decide),
          fun hw => absurd hw.1 h2⟩
      · exact ⟨fun _ => not_le.mp h2, fun _ => rfl⟩

theorem frac_of_ceiling (a ceiling : ℚ) (hc : 0 < ceiling) :
    a * ceiling / ceiling * 100 = a * 100 := by
  rw [mul_div_assoc, div_self (ne_of_gt hc), mul_one]

/-- Claim C1, counterexample: with a daily recurring record 9 days overdue
at `today` = 2024-01-10, the first sweep produces one clone (ledger length
2), and a second sweep with the same `today` produces two further clones
(ledger length 4): the advanced `nextDate` 2024-01-02 is still ≤ `today`,
so both the source and the first clone are due again.  Running the sweep
twice is therefore not idempotent. -/
theorem sweep_twice_not_idempotent_cex :
    (migrateRecurring ⟨2024, 1, 10⟩ [overdueDaily]).length = 2 ∧
    (migrateRecurring ⟨2024, 1, 10⟩
      (migrateRecurring ⟨2024, 1, 10⟩ [overdueDaily])).length = 4 ∧
    migrateRecurring ⟨2024, 1, 10⟩ (migrateRecurring ⟨2024, 1, 10⟩ [overdueDaily])
      ≠ migrateRecurring ⟨2024, 1, 10⟩ [overdueDaily] := by
  refine ⟨by decide, by decide, by decide⟩

/-- Claim C1 (amended): running the recurrence sweep twice with the same
`today` is idempotent provided the first sweep advances every due record's
`nextDate` past `today` — that is, when no due record is more than one
period behind (e.g. when every due record's `nextDate` equals `today`).
The unconditional claim is false: the sweep advances `nextDate` by exactly
one period from its previous value, so a record several periods overdue is
due again on the next sweep (see `sweep_twice_not_idempotent_cex`). -/
theorem sweep_idempotent_of_advanced_past (today : CalDate) (L : List Expense)
    (h : ∀ e ∈ L, isDue today e = true →
      CalDate.le (computeNextDate (e.nextDate.getD e.date) e.frequency) today
        = false) :
    migrateRecurring today (migrateRecurring today L)
      = migrateRecurring today L := by
  apply sweep_of_no_due
  intro e' he'
  rw [migrateRecurring_spec] at he'
  rcases List.mem_append.mp he' with hA | hC
  · obtain ⟨e, heL, hadv⟩ := List.mem_map.mp hA
    by_cases hdue : isDue today e
    · have he'eq : e' = advancedOf e := by
        rw [← hadv]; simp [advanceIfDue, hdue]
      rw [he'eq]
      unfold isDue advancedOf
      simp only []
      rw [h e heL hdue]
      simp
    · have he'eq : e' = e := by
        rw [← hadv]; simp [advanceIfDue, hdue]
      rw [he'eq]
      simpa using hdue
  · obtain ⟨e, heL, hdue, _, hfreq, hnext⟩ := sweepClones_mem today L (lastId L) e' hC
    have hred : isDue today e' =
        (e'.recurring &&
          CalDate.le (computeNextDate (e.nextDate.getD e.date) e.frequency) today) := by
      unfold isDue
      rw [hnext]
    rw [hred, h e heL hdue]
    simp

/-- Witness for `sweep_idempotent_of_advanced_past` at a concrete ledger:
one daily record due exactly on 2024-01-10; its advanced next date
2024-01-11 passes `today`, and a second sweep changes nothing. -/
theorem sweep_idempotent_witness :
    migrateRecurring ⟨2024, 1, 10⟩ (migrateRecurring ⟨2024, 1, 10⟩ [dueToday])
      = migrateRecurring ⟨2024, 1, 10⟩ [dueToday] :=
  sweep_idempotent_of_advanced_past ⟨2024, 1, 10⟩ [dueToday] (by decide)

/-- Claim C2: one sweep call appends exactly one new occurrence per due
record of the pre-sweep ledger — the snapshot iteration never re-evaluates
the records it appends — so the ledger grows by the number of due records,
never more; in particular a daily recurring expense 10 days overdue yields
exactly one new occurrence (ledger length 2, not 11). -/
theorem sweep_adds_one_per_due :
    (∀ (today : CalDate) (L : List Expense),
      (migrateRecurring today L).length = L.length + L.countP (isDue today)) ∧
    (migrateRecurring ⟨2024, 1, 11⟩ [tenDaysOverdue]).length = 1 + 1 := by
  constructor
  · intro today L
    rw [migrateRecurring_spec, List.length_append, List.length_map,
      sweepClones_length]
  · decide

/-- Claim C5, counterexample: a recurring record whose `nextDate` is
strictly before `today` (2024-01-05 < 2024-01-10) is cloned AND produces a
notification — the source emits the reminder under the same `nextDate <=
today` guard that triggers cloning, not only when the due date equals
`today` exactly.  This contradicts the claim that such a record "is cloned
but produces no notification". -/
theorem overdue_record_notified_cex :
    sweepNotifs ⟨2024, 1, 10⟩ [strictlyOverdue] = [("stream", 12)] ∧
    (migrateRecurring ⟨2024, 1, 10⟩ [strictlyOverdue]).length = 2 ∧
    strictlyOverdue.nextDate = some ⟨2024, 1, 5⟩ ∧
    (⟨2024, 1, 5⟩ : CalDate) ≠ ⟨2024, 1, 10⟩ ∧
    CalDate.lt ⟨2024, 1, 5⟩ ⟨2024, 1, 10⟩ = true := by
  refine ⟨by decide, by decide, by decide, by decide, by decide⟩

/-- Claim C5 (amended): during a sweep the reminder notification (carrying
the expense name and amount) is emitted for a record if and only if the
record is processed by the sweep at all — i.e. exactly when it is recurring
and its `nextDate` is on or before `today`; records strictly overdue are
both cloned and notified.  (The notification-permission gate is the
collaborator's concern and is outside the engine.) -/
theorem sweep_notifications_iff_processed (today : CalDate) (L : List Expense) :
    sweepNotifs today L =
      (L.filter (isDue today)).map (fun e => (e.name, e.amount)) :=
  sweepNotifs_spec today L

/-- Claim C7, counterexample: with a ceiling of exactly 0 and spent = 0 the
source computes percentage `(0/0)*100 = NaN`, `Math.min(NaN, 100) = NaN`,
and both `NaN >= 90` and `NaN >= 75` are false, so the category is reported
with the normal (empty) status class and a NaN percentage — not "danger"
with percentage 100 as the claim asserts for every spent value. -/
theorem zero_ceiling_zero_spent_cex :
    (reportFor 0 0).cls = BudgetClass.normal ∧
    (reportFor 0 0).percentage = JsNum.nan ∧
    (reportFor 0 0).cls ≠ BudgetClass.danger := by
  refine ⟨by decide, by decide, by decide⟩

/-- Claim C7 (amended): a ceiling of exactly 0 never raises a numeric
error; for every positive spent the category is reported as "danger" with
percentage 100 (spent/0 = +Infinity, `Math.min` clamps to 100), but for
spent = 0 the percentage is NaN and the status class is the normal default,
not "danger". -/
theorem zero_ceiling_report :
    (∀ spent : ℚ, 0 < spent →
      (reportFor spent 0).cls = BudgetClass.danger ∧
      (reportFor spent 0).percentage = JsNum.num 100) ∧
    ((reportFor 0 0).cls = BudgetClass.normal ∧
      (reportFor 0 0).percentage = JsNum.nan) := by
  constructor
  · intro spent hs
    have hdiv : jsDiv (.num spent) (.num 0) = JsNum.posInf := by
      simp only [jsDiv, if_true]
      rw [if_neg (ne_of_gt hs), if_pos hs]
    have hperc : budgetPercentage spent 0 = JsNum.num 100 := by
      unfold budgetPercentage
      rw [hdiv]
      have hmul : jsMul JsNum.posInf (.num 100) = JsNum.posInf := by
        simp only [jsMul]
        rw [if_neg (by norm_num), if_pos (by norm_num)]
      rw [hmul]
      rfl
    constructor
    · unfold reportFor
      simp only [hperc]
      rw [statusClass_num]
      norm_num
    · unfold reportFor
      simp only [hperc]
  · exact ⟨by decide, by decide⟩

/-- Witness for `zero_ceiling_report` at spent = 5. -/
theorem zero_ceiling_report_witness :
    ((reportFor 5 0).cls = BudgetClass.danger ∧
      (reportFor 5 0).percentage = JsNum.num 100) ∧
    ((reportFor 0 0).cls = BudgetClass.normal ∧
      (reportFor 0 0).percentage = JsNum.nan) :=
  ⟨zero_ceiling_report.1 5 (by norm_num), zero_ceiling_report.2⟩

/-- Claim C3: for a recurring record `src` at position `i` of an id-sorted
ledger with `nextDate` on or before `today`, one sweep (1) replaces the
source in place by `advancedOf src` — the same record with only `nextDate`
advanced to the frequency-advance of its previous value, every other field
unchanged — and (2) appends `cloneOf n src`: a full copy of the source
except that its `date` is the source's previous `nextDate`, its `nextDate`
is the same newly computed advance (the value the source was advanced to),
and its id, `n + 1`, is (3) one more than the largest id occurring anywhere
before it in the resulting ledger — the next unused identifier at the
moment it is appended.  The clone sits at position `length + k` where `k`
counts the due records before position `i`. -/
theorem sweep_clone_and_source_update (today : CalDate) (L : List Expense)
    (i : Nat) (src : Expense)
    (hchain : List.Chain' (fun a b => a.id < b.id) L)
    (hi : L[i]? = some src) (hdue : isDue today src = true) :
    (migrateRecurring today L)[i]? = some (advancedOf src) ∧
    (migrateRecurring today L)[L.length + (L.take i).countP (isDue today)]? =
      some (cloneOf (lastId L + (L.take i).countP (isDue today)) src) ∧
    (cloneOf (lastId L + (L.take i).countP (isDue today)) src).id =
      maxId ((migrateRecurring today L).take
        (L.length + (L.take i).countP (isDue today))) + 1 := by
  have hilt : i < L.length := by
    by_contra hge
    rw [List.getElem?_eq_none (by omega)] at hi
    exact Option.noConfusion hi
  have hne : L ≠ [] := by
    intro h0
    subst h0
    simp at hilt
  have hk : (L.take i).countP (isDue today) ≤ L.countP (isDue today) :=
    countP_take_le (isDue today) L i
  refine ⟨?_, ?_, ?_⟩
  · rw [migrateRecurring_spec]
    rw [List.getElem?_append_left (by simpa using hilt), List.getElem?_map, hi]
    simp [advanceIfDue, hdue]
  · rw [migrateRecurring_spec]
    rw [List.getElem?_append_right (by simp)]
    have hlen : L.length + (L.take i).countP (isDue today)
        - (L.map (advanceIfDue today)).length = (L.take i).countP (isDue today) := by
      simp
    rw [hlen]
    exact sweepClones_get today L i src (lastId L) hi hdue
  · rw [sweep_front_maxId today L _ hchain hne hk]
    rfl

/-- Witness for `sweep_clone_and_source_update` on the one-record ledger
`[dueToday]` at position 0: the source is advanced in place and the clone
is appended at position 1 with id 2 = (largest id before it) + 1. -/
theorem sweep_clone_witness :
    (migrateRecurring ⟨2024, 1, 10⟩ [dueToday])[0]? = some (advancedOf dueToday) ∧
    (migrateRecurring ⟨2024, 1, 10⟩ [dueToday])[1 + 0]? =
      some (cloneOf (lastId [dueToday] + 0) dueToday) ∧
    (cloneOf (lastId [dueToday] + 0) dueToday).id =
      maxId ((migrateRecurring ⟨2024, 1, 10⟩ [dueToday]).take (1 + 0)) + 1 := by
  have h := sweep_clone_and_source_update ⟨2024, 1, 10⟩ [dueToday] 0 dueToday
    (by simp) (by decide) (by decide)
  exact ⟨h.1, by simpa using h.2.1, by simpa using h.2.2⟩

/-- Claim C4: in every ledger reachable by expense additions and sweeps
from the empty ledger, identifiers are unique and strictly increasing with
insertion order, the maximum id equals the ledger's insertion count
(= its length, absent deletions), and a further valid addition receives
id = max existing id + 1 (which is 1 when the ledger is empty, since the
empty maximum is 0). -/
theorem reachable_ids_unique_monotone (L : List Expense) (h : Reach L) :
    (L.map Expense.id).Nodup ∧
    List.Chain' (fun a b : Nat => a < b) (L.map Expense.id) ∧
    maxId L = L.length ∧
    (∀ inp, validInput inp = true →
      (addExpense inp L).map Expense.id
        = L.map Expense.id ++ [maxId L + 1]) := by
  have hids := reach_ids h
  have hmax : maxId L = L.length := by
    unfold maxId
    rw [hids, foldr_max_range']
    rcases Nat.eq_zero_or_pos L.length with h0 | hpos
    · simp [h0]
    · rw [if_neg (by omega)]
      omega
  refine ⟨?_, ?_, hmax, ?_⟩
  · rw [hids]
    exact List.nodup_range' 1 L.length
  · rw [hids]
    exact (List.pairwise_lt_range' 1 L.length).chain'
  · intro inp hv
    unfold addExpense
    rw [if_pos hv, List.map_append]
    rcases Nat.eq_zero_or_pos L.length with h0 | hpos
    · have hnil : L = [] := List.eq_nil_of_length_eq_zero h0
      subst hnil
      simp [mkExpense, maxId]
    · have hlast : lastId L = L.length := lastId_of_ids_range' L L.length hids hpos
      have hid : (mkExpense inp L).id = L.length + 1 := by
        unfold mkExpense
        simp [hpos, hlast]
      simp only [List.map_cons, List.map_nil, hid, hmax]

/-- Witness for `reachable_ids_unique_monotone` on the concrete reachable
ledger obtained by one valid addition to the empty ledger, followed by a
check that the next valid addition gets id = max + 1 = 2. -/
theorem reachable_ids_witness :
    ((addExpense simpleInput []).map Expense.id).Nodup ∧
    List.Chain' (fun a b : Nat => a < b) ((addExpense simpleInput []).map Expense.id) ∧
    maxId (addExpense simpleInput []) = (addExpense simpleInput []).length ∧
    (addExpense simpleInput (addExpense simpleInput [])).map Expense.id
      = (addExpense simpleInput []).map Expense.id
        ++ [maxId (addExpense simpleInput []) + 1] := by
  have h := reachable_ids_unique_monotone (addExpense simpleInput [])
    (Reach.add simpleInput Reach.nil)
  exact ⟨h.1, h.2.1, h.2.2.1, h.2.2.2 simpleInput (by decide)⟩

/-- Claim C8: the frequency-advance function returns date + 1 calendar day
for "daily" (the canonical calendar successor), date + 7 calendar days for
"weekly" (seven successors), the same day-of-month in the next calendar
month for "monthly" whenever that day exists there (otherwise the date
library's native rollover applies, which is how `jsAddMonth` is defined),
and the input date unchanged for any other frequency value.  The source
operates on a defensive copy (`new Date(dateObj)`) and never mutates its
argument, which the purely functional embedding reflects. -/
theorem computeNextDate_spec (d : CalDate) (hd : 1 ≤ d.day)
    (hdim : d.day ≤ daysInMonth d.year d.month) :
    computeNextDate d (some "daily") = calSucc d ∧
    computeNextDate d (some "weekly") = calSucc^[7] d ∧
    (d.day ≤ daysInMonth (nextMonth d.year d.month).1 (nextMonth d.year d.month).2 →
      computeNextDate d (some "monthly") =
        ⟨(nextMonth d.year d.month).1, (nextMonth d.year d.month).2, d.day⟩) ∧
    (∀ f : Option String,
      f ≠ some "daily" → f ≠ some "weekly" → f ≠ some "monthly" →
      computeNextDate d f = d) :=
  ⟨computeNextDate_daily_eq d hd hdim, computeNextDate_weekly_eq d hd hdim,
    fun hfit => computeNextDate_monthly_fit d hfit,
    fun f h1 h2 h3 => computeNextDate_default d f h1 h2 h3⟩

/-- Witness for `computeNextDate_spec` at 2024-01-15: +1 day, +7 days, same
day next month, and an unrecognised frequency left unchanged. -/
theorem computeNextDate_spec_witness :
    computeNextDate ⟨2024, 1, 15⟩ (some "daily") = calSucc ⟨2024, 1, 15⟩ ∧
    computeNextDate ⟨2024, 1, 15⟩ (some "weekly") = calSucc^[7] ⟨2024, 1, 15⟩ ∧
    computeNextDate ⟨2024, 1, 15⟩ (some "monthly") = ⟨2024, 2, 15⟩ ∧
    computeNextDate ⟨2024, 1, 15⟩ (some "yearly") = ⟨2024, 1, 15⟩ := by
  have h := computeNextDate_spec ⟨2024, 1, 15⟩ (by decide) (by decide)
  exact ⟨h.1, h.2.1, h.2.2.1 (by decide),
    h.2.2.2 (some "yearly") (by decide) (by decide) (by decide)⟩

/-- Claim C9, counterexample: the migration does NOT run before the
recurrence sweep.  The script calls `initializePage()` (which runs the
sweep) at line 100 and `migrateOldData()` only at line 743, so on a ledger
whose first record lacks `category` but is recurring and past due, the
sweep clones it first and the migration then rewrites both records
(observable final length 2); under the order the claim asserts — migration
before any other logic — the migration would first drop the recurrence
fields and the sweep would generate nothing (final length 1). -/
theorem migration_after_sweep_cex :
    appStart ⟨2024, 1, 10⟩ [legacyRecurring]
      ≠ appStartSpecOrder ⟨2024, 1, 10⟩ [legacyRecurring] ∧
    (appStart ⟨2024, 1, 10⟩ [legacyRecurring]).length = 2 ∧
    (appStartSpecOrder ⟨2024, 1, 10⟩ [legacyRecurring]).length = 1 := by
  refine ⟨by decide, by decide, by decide⟩

/-- Claim C9 (amended): when the persisted ledger's first record lacks the
category field, the one-time migration rewrites every record with defaults
category "Other" and subcategory "Miscellaneous" (payment type from the
legacy `type` field or "Other"), preserving name, date, amount and id.
The migration is invoked at the END of the initial script run — after the
recurrence sweep has already operated on the unmigrated ledger — and then
reloads the page, so only from the reload onward does all logic operate on
migrated data.  For a ledger in the legacy shape (no record carries the
recurring flag) the sweep is a no-op on the unmigrated data, and the result
coincides with running the migration first, as the claim describes. -/
theorem migration_rewrites_legacy_records (today : CalDate) (e0 : Expense)
    (rest : List Expense) (hcat : e0.category = none)
    (hnorec : ∀ e ∈ e0 :: rest, e.recurring = false) :
    appStart today (e0 :: rest) = (e0 :: rest).map migrateOne ∧
    appStart today (e0 :: rest) = appStartSpecOrder today (e0 :: rest) ∧
    ∀ e ∈ e0 :: rest,
      (migrateOne e).name = e.name ∧ (migrateOne e).date = e.date ∧
      (migrateOne e).amount = e.amount ∧ (migrateOne e).id = e.id ∧
      (migrateOne e).category = some "Other" ∧
      (migrateOne e).subcategory = some "Miscellaneous" := by
  have hdue : ∀ e ∈ e0 :: rest, isDue today e = false := by
    intro e he
    unfold isDue
    rw [hnorec e he]
    simp
  have hs1 : migrateRecurring today (e0 :: rest) = e0 :: rest :=
    sweep_of_no_due today _ hdue
  have hmig : migrateOldData (e0 :: rest) = some ((e0 :: rest).map migrateOne) := by
    show (if e0.category.isSome = true then none
      else some ((e0 :: rest).map migrateOne)) = some ((e0 :: rest).map migrateOne)
    rw [hcat]
    rfl
  have hmigrec : ∀ x ∈ (e0 :: rest).map migrateOne, isDue today x = false := by
    intro x hx
    obtain ⟨e, _, hxe⟩ := List.mem_map.mp hx
    unfold isDue
    rw [← hxe]
    rfl
  have hs2 : migrateRecurring today ((e0 :: rest).map migrateOne)
      = (e0 :: rest).map migrateOne :=
    sweep_of_no_due today _ hmigrec
  have happ : appStart today (e0 :: rest) = (e0 :: rest).map migrateOne := by
    show (match migrateOldData (migrateRecurring today (e0 :: rest)) with
      | none => migrateRecurring today (e0 :: rest)
      | some migrated => migrateRecurring today migrated)
      = (e0 :: rest).map migrateOne
    rw [hs1, hmig]
    exact hs2
  refine ⟨happ, ?_, ?_⟩
  · rw [happ]
    unfold appStartSpecOrder
    rw [hmig]
    exact hs2.symm
  · intro e _
    exact ⟨rfl, rfl, rfl, rfl, rfl, rfl⟩

/-- Witness for `migration_rewrites_legacy_records` on a one-record legacy
ledger: the migrated record keeps name/date/amount/id, gets the default
category and subcategory, and both load orders agree. -/
theorem migration_rewrites_witness :
    appStart ⟨2024, 1, 10⟩ [legacyPlain] = [legacyPlain].map migrateOne ∧
    appStart ⟨2024, 1, 10⟩ [legacyPlain]
      = appStartSpecOrder ⟨2024, 1, 10⟩ [legacyPlain] ∧
    (migrateOne legacyPlain).name = legacyPlain.name ∧
    (migrateOne legacyPlain).date = legacyPlain.date ∧
    (migrateOne legacyPlain).amount = legacyPlain.amount ∧
    (migrateOne legacyPlain).id = legacyPlain.id ∧
    (migrateOne legacyPlain).category = some "Other" ∧
    (migrateOne legacyPlain).subcategory = some "Miscellaneous" := by
  have h := migration_rewrites_legacy_records ⟨2024, 1, 10⟩ legacyPlain []
    (by decide) (by decide)
  have hf := h.2.2 legacyPlain (by simp)
  exact ⟨h.1, h.2.1, hf.1, hf.2.1, hf.2.2.1, hf.2.2.2.1, hf.2.2.2.2.1,
    hf.2.2.2.2.2⟩

/-- Claim C10: a valid recurring addition stores the selected frequency and
a `nextDate` equal to the frequency advance of the entered date — strictly
later than the entered date for each of the three supported frequencies,
so the first auto-generated occurrence (whose date is the source's
`nextDate`) is never the entry date itself; a valid non-recurring addition
stores null frequency and null `nextDate`; and the sweep preserves the
shape invariant that every recurring record carries both a frequency and a
`nextDate`. -/
theorem addExpense_recurrence_shape :
    (∀ (inp : ExpenseInput) (L : List Expense),
      validInput inp = true → inp.recurring = true →
      (inp.recurrence = "daily" ∨ inp.recurrence = "weekly"
        ∨ inp.recurrence = "monthly") →
      addExpense inp L = L ++ [mkExpense inp L] ∧
      (mkExpense inp L).recurring = true ∧
      (mkExpense inp L).frequency = some inp.recurrence ∧
      (mkExpense inp L).nextDate =
        some (computeNextDate (inp.date.getD ⟨1970, 1, 1⟩)
          (some inp.recurrence)) ∧
      (mkExpense inp L).date = inp.date.getD ⟨1970, 1, 1⟩ ∧
      CalDate.lt (inp.date.getD ⟨1970, 1, 1⟩)
        (computeNextDate (inp.date.getD ⟨1970, 1, 1⟩) (some inp.recurrence))
        = true) ∧
    (∀ (inp : ExpenseInput) (L : List Expense),
      validInput inp = true → inp.recurring = false →
      addExpense inp L = L ++ [mkExpense inp L] ∧
      (mkExpense inp L).frequency = none ∧
      (mkExpense inp L).nextDate = none) ∧
    (∀ (today : CalDate) (L : List Expense),
      (∀ e ∈ L, e.recurring = true →
        e.frequency.isSome = true ∧ e.nextDate.isSome = true) →
      ∀ e ∈ migrateRecurring today L, e.recurring = true →
        e.frequency.isSome = true ∧ e.nextDate.isSome = true) := by
  refine ⟨?_, ?_, ?_⟩
  · intro inp L hv hrec hfreq
    refine ⟨by unfold addExpense; rw [if_pos hv], ?_, ?_, ?_, rfl, ?_⟩
    · simp [mkExpense, hrec]
    · simp [mkExpense, hrec]
    · simp [mkExpense, hrec]
    · exact lt_computeNextDate (inp.date.getD ⟨1970, 1, 1⟩) inp.recurrence hfreq
  · intro inp L hv hrec
    refine ⟨by unfold addExpense; rw [if_pos hv], ?_, ?_⟩
    · simp [mkExpense, hrec]
    · simp [mkExpense, hrec]
  · intro today L hshape e he herec
    rw [migrateRecurring_spec] at he
    rcases List.mem_append.mp he with hA | hC
    · obtain ⟨x, hx, hxe⟩ := List.mem_map.mp hA
      by_cases hdue : isDue today x
      · have hee : e = advancedOf x := by
          rw [← hxe]; simp [advanceIfDue, hdue]
        have hxrec : x.recurring = true := by
          rw [hee] at herec
          exact herec
        rw [hee]
        exact ⟨(hshape x hx hxrec).1, rfl⟩
      · have hee : e = x := by
          rw [← hxe]; simp [advanceIfDue, hdue]
        rw [hee]
        rw [hee] at herec
        exact hshape x hx herec
    · obtain ⟨x, hx, hxdue, hxrec, hxfreq, hxnext⟩ :=
        sweepClones_mem today L (lastId L) e hC
      have hxrec' : x.recurring = true := by
        rw [← hxrec]
        exact herec
      refine ⟨?_, ?_⟩
      · rw [hxfreq]
        exact (hshape x hx hxrec').1
      · rw [hxnext]
        rfl

/-- Witness for `addExpense_recurrence_shape`: a recurring daily entry on
2024-03-31 gets frequency "daily" and `nextDate` strictly after the entry
date; a non-recurring entry gets null frequency and `nextDate`; and the
clone generated by a sweep of `[dueToday]` carries both recurrence
fields. -/
theorem addExpense_recurrence_witness :
    (addExpense recurringInput [] = [] ++ [mkExpense recurringInput []] ∧
      (mkExpense recurringInput []).recurring = true ∧
      (mkExpense recurringInput []).frequency = some recurringInput.recurrence ∧
      (mkExpense recurringInput []).nextDate =
        some (computeNextDate (recurringInput.date.getD ⟨1970, 1, 1⟩)
          (some recurringInput.recurrence)) ∧
      (mkExpense recurringInput []).date = recurringInput.date.getD ⟨1970, 1, 1⟩ ∧
      CalDate.lt (recurringInput.date.getD ⟨1970, 1, 1⟩)
        (computeNextDate (recurringInput.date.getD ⟨1970, 1, 1⟩)
          (some recurringInput.recurrence)) = true) ∧
    (addExpense simpleInput [] = [] ++ [mkExpense simpleInput []] ∧
      (mkExpense simpleInput []).frequency = none ∧
      (mkExpense simpleInput []).nextDate = none) ∧
    ((cloneOf (lastId [dueToday]) dueToday).frequency.isSome = true ∧
      (cloneOf (lastId [dueToday]) dueToday).nextDate.isSome = true) := by
  refine ⟨addExpense_recurrence_shape.1 recurringInput [] (by decide) (by decide)
      (by decide),
    addExpense_recurrence_shape.2.1 simpleInput [] (by decide) (by decide),
    addExpense_recurrence_shape.2.2 ⟨2024, 1, 10⟩ [dueToday] (by decide)
      (cloneOf (lastId [dueToday]) dueToday) (by decide) (by decide)⟩

/-- Claim C6: for a category with a configured ceiling, the aggregator
reports spent = that category's current-month sum, remaining =
ceiling − spent (possibly negative), percentage = min(100, 100·spent/ceiling),
and classifies "danger" exactly when the percentage is ≥ 90, "warning"
exactly when it is in [75, 90), and "normal" otherwise; consequently
spent = 0.90·ceiling is danger, 0.75·ceiling is warning, 0.749999·ceiling
is normal, and spent = 2·ceiling clamps the percentage to 100 with a
negative remaining. -/
theorem budget_report_correct (now : CalDate) (L : List Expense)
    (cat : String) (budgets : List (String × ℚ)) (spent ceiling : ℚ)
    (hc : 0 < ceiling) :
    ((cat, ceiling) ∈ budgets →
      (cat, reportFor (monthlySpent now L cat) ceiling)
        ∈ updateBudgetOverview now L budgets) ∧
    (reportFor spent ceiling).spent = spent ∧
    (reportFor spent ceiling).remaining = ceiling - spent ∧
    (reportFor spent ceiling).percentage
      = JsNum.num (min (spent / ceiling * 100) 100) ∧
    ((reportFor spent ceiling).cls = BudgetClass.danger
      ↔ 90 ≤ min (spent / ceiling * 100) 100) ∧
    ((reportFor spent ceiling).cls = BudgetClass.warning
      ↔ (75 ≤ min (spent / ceiling * 100) 100
          ∧ min (spent / ceiling * 100) 100 < 90)) ∧
    ((reportFor spent ceiling).cls = BudgetClass.normal
      ↔ min (spent / ceiling * 100) 100 < 75) ∧
    (spent = 9 / 10 * ceiling → (reportFor spent ceiling).cls = BudgetClass.danger) ∧
    (spent = 3 / 4 * ceiling → (reportFor spent ceiling).cls = BudgetClass.warning) ∧
    (spent = 749999 / 1000000 * ceiling →
      (reportFor spent ceiling).cls = BudgetClass.normal) ∧
    (spent = 2 * ceiling →
      (reportFor spent ceiling).percentage = JsNum.num 100 ∧
      (reportFor spent ceiling).remaining < 0) := by
  have hcls : (reportFor spent ceiling).cls
      = statusClass (.num (min (spent / ceiling * 100) 100)) := by
    unfold reportFor
    simp only []
    rw [budgetPercentage_pos_ceiling spent ceiling hc]
  have hiff := statusClass_iff (min (spent / ceiling * 100) 100)
  refine ⟨?_, rfl, rfl, ?_, ?_, ?_, ?_, ?_, ?_, ?_, ?_⟩
  · intro hmem
    unfold updateBudgetOverview
    exact List.mem_map_of_mem
      (fun cb => (cb.1, reportFor (monthlySpent now L cb.1) cb.2)) hmem
  · unfold reportFor
    simp only []
    rw [budgetPercentage_pos_ceiling spent ceiling hc]
  · rw [hcls]; exact hiff.1
  · rw [hcls]; exact hiff.2.1
  · rw [hcls]; exact hiff.2.2
  · intro hval
    rw [hcls]
    rw [hiff.1]
    rw [hval, frac_of_ceiling _ _ hc]
    norm_num
  · intro hval
    rw [hcls]
    rw [hiff.2.1]
    rw [hval, frac_of_ceiling _ _ hc]
    norm_num
  · intro hval
    rw [hcls]
    rw [hiff.2.2]
    rw [hval, frac_of_ceiling _ _ hc]
    norm_num
  · intro hval
    constructor
    · unfold reportFor
      simp only []
      rw [budgetPercentage_pos_ceiling spent ceiling hc]
      rw [hval, frac_of_ceiling _ _ hc]
      norm_num
    · unfold reportFor
      simp only []
      rw [hval]
      linarith

/-- Witness for `budget_report_correct`: with one May expense of 50 and a
ceiling of 100 the aggregator reports the category with spent 50,
remaining 50, percentage 50 and the normal class; the boundary instances
0.90, 0.75, 0.749999 and 2 times the ceiling classify as the claim says. -/
theorem budget_report_witness :
    monthlySpent ⟨2024, 5, 15⟩ [mayLunch] "Food & Dining" = 50 ∧
    ("Food & Dining",
        reportFor (monthlySpent ⟨2024, 5, 15⟩ [mayLunch] "Food & Dining") 100)
      ∈ updateBudgetOverview ⟨2024, 5, 15⟩ [mayLunch] [("Food & Dining", 100)] ∧
    (reportFor 50 100).remaining = 100 - 50 ∧
    (reportFor 50 100).percentage = JsNum.num (min (50 / 100 * 100) 100) ∧
    (reportFor 50 100).cls = BudgetClass.normal ∧
    (reportFor 90 100).cls = BudgetClass.danger ∧
    (reportFor 75 100).cls = BudgetClass.warning ∧
    (reportFor (749999 / 1000000 * 100) 100).cls = BudgetClass.normal ∧
    (reportFor 200 100).percentage = JsNum.num 100 ∧
    (reportFor 200 100).remaining < 0 := by
  have hspent : monthlySpent ⟨2024, 5, 15⟩ [mayLunch] "Food & Dining" = 50 := by
    norm_num [monthlySpent, mayLunch, List.filter]
  have h50 := budget_report_correct ⟨2024, 5, 15⟩ [mayLunch] "Food & Dining"
    [("Food & Dining", 100)] 50 100 (by norm_num)
  have h90 := budget_report_correct ⟨2024, 5, 15⟩ [mayLunch] "Food & Dining"
    [] 90 100 (by norm_num)
  have h75 := budget_report_correct ⟨2024, 5, 15⟩ [mayLunch] "Food & Dining"
    [] 75 100 (by norm_num)
  have h74 := budget_report_correct ⟨2024, 5, 15⟩ [mayLunch] "Food & Dining"
    [] (749999 / 1000000 * 100) 100 (by norm_num)
  have h200 := budget_report_correct ⟨2024, 5, 15⟩ [mayLunch] "Food & Dining"
    [] 200 100 (by norm_num)
  refine ⟨hspent, h50.1 (by simp), h50.2.2.1, h50.2.2.2.1, ?_, ?_, ?_, ?_, ?_, ?_⟩
  · exact (h50.2.2.2.2.2.2.1).mpr (by norm_num)
  · exact h90.2.2.2.2.2.2.2.1 (by norm_num)
  · exact h75.2.2.2.2.2.2.2.2.1 (by norm_num)
  · exact h74.2.2.2.2.2.2.2.2.2.1 (by norm_num)
  · exact (h200.2.2.2.2.2.2.2.2.2.2 (by norm_num)).1
  · exact (h200.2.2.2.2.2.2.2.2.2.2 (by norm_num)).2
